import Mathlib

set_option autoImplicit false

/-!
# windows-scripts: the script launcher of `gui/main.go`

A shallow embedding of `scanScripts`, `detectAdmin`, `runScript` and
`runAsAdmin`, together with the parts of the Go standard library they call
(`strings`, `bufio.Scanner`, `syscall.UTF16PtrFromString`), and the
properties of the launcher that follow from them.

A Go string is represented by the list of runes it decodes to.  Sizes that
the library counts in bytes are computed from the UTF-8 length of each rune.
-/

namespace WindowsScripts

/-! ## Package `strings` -/

namespace Strings

/-- Code point of `unicode.ToLower` of the rune with code point `n`, as far as
a comparison with ASCII text can observe it: the ASCII capitals move to their
small letters, the two non-ASCII runes whose lower case is an ASCII letter
(U+0130 to `i`, U+212A to `k`) are mapped there, every other rune keeps its
place outside ASCII and is left as it is. -/
def lowerCode (n : Nat) : Nat :=
  if 65 ≤ n ∧ n ≤ 90 then n + 32
  else if n = 0x130 then 105
  else if n = 0x212A then 107
  else n

/-- Lower case of one rune. -/
def toLowerRune (c : Char) : Char := Char.ofNat (lowerCode c.toNat)

/-- Go `strings.ToLower`: every rune is mapped to its lower case. -/
def ToLower (s : List Char) : List Char := s.map toLowerRune

/-- Go `strings.HasPrefix`: `s` starts with `pre`. -/
def HasPrefix : List Char → List Char → Bool
  | _, [] => true
  | [], _ :: _ => false
  | c :: s, d :: pre => if c = d then HasPrefix s pre else false

/-- Go `strings.HasSuffix`:
`len(s) >= len(suffix) && s[len(s)-len(suffix):] == suffix`. -/
def HasSuffix (s suffix : List Char) : Bool :=
  decide (suffix.length ≤ s.length) && decide (s.drop (s.length - suffix.length) = suffix)

/-- Go `strings.TrimSuffix`: `s` without the trailing `suffix`, or `s` itself
when it does not end with `suffix`. -/
def TrimSuffix (s suffix : List Char) : List Char :=
  if HasSuffix s suffix then s.take (s.length - suffix.length) else s

/-- Go `strings.Contains`: `substr` occurs in `s` at some position. -/
def Contains : List Char → List Char → Bool
  | [], substr => HasPrefix [] substr
  | c :: s, substr => if HasPrefix (c :: s) substr then true else Contains s substr

end Strings

/-! ## `bufio.Scanner` with the `ScanLines` split function -/

/-- The constant `bufio.MaxScanTokenSize`: the largest buffer a scanner made by
`bufio.NewScanner` grows to. -/
def maxScanTokenSize : Nat := 64 * 1024

/-- Number of bytes of the UTF-8 encoding of a rune (`utf8.RuneLen`). -/
def runeLen (c : Char) : Nat :=
  if c.toNat < 0x80 then 1
  else if c.toNat < 0x800 then 2
  else if c.toNat < 0x10000 then 3
  else 4

/-- Number of bytes of a string. -/
def byteLen (s : List Char) : Nat := (s.map runeLen).sum

/-- The helper `dropCR` of `bufio.ScanLines`: a trailing carriage return is
removed. -/
def dropCR (data : List Char) : List Char :=
  if data.getLast? = some '\r' then data.dropLast else data

/-- The tokens that the successive calls of `Scan` deliver, `cur` being the
part of the current line already in the buffer.  A line ends at a newline or
at the end of the input (where an empty rest is no token).  The buffer holds
at most `maxScanTokenSize` bytes: a line of that many bytes or more fills it
before its end is seen, `Scan` then fails with `ErrTooLong` and every later
call returns false. -/
def scanFrom (cur : List Char) : List Char → List (List Char)
  | [] =>
    if cur = [] then []
    else if byteLen cur < maxScanTokenSize then [dropCR cur]
    else []
  | c :: rest =>
    if c = '\n' then
      if byteLen cur < maxScanTokenSize then dropCR cur :: scanFrom [] rest
      else []
    else scanFrom (cur ++ [c]) rest

/-- The values of `scanner.Text()` in the loop `for scanner.Scan()` over a
scanner made by `bufio.NewScanner` on the input `data`. -/
def scanLines (data : List Char) : List (List Char) := scanFrom [] data

/-! ## The operating system -/

/-- A directory entry as `os.ReadDir` returns it. -/
structure DirEntry where
  Name : List Char
  IsDir : Bool
deriving DecidableEq, Repr

/-- The part of the operating system the launcher talks to.
* `ReadDir dir` is the result of `os.ReadDir(dir)`: the entries, and whether
  the error is non-nil.
* `Open path` is `none` when `os.Open(path)` fails, otherwise the data that
  reading the file delivers until it ends.
* `Join` and `IsAbs` are `filepath.Join` (of two elements) and
  `filepath.IsAbs`. -/
structure OS where
  ReadDir : List Char → List DirEntry × Bool
  Open : List Char → Option (List Char)
  Join : List Char → List Char → List Char
  IsAbs : List Char → Bool

/-! ## `gui/main.go` -/

/-- The struct `Script`. -/
structure Script where
  Name : List Char
  Path : List Char
  NeedAdmin : Bool
deriving DecidableEq, Repr

/-- The variable `adminKeywords`. -/
def adminKeywords : List (List Char) :=
  [ "hklm:".toList, "hkey_local_machine".toList,
    "hkcr:".toList, "hkey_classes_root".toList,
    "registry::hkey_classes_root".toList, "registry::hkey_local_machine".toList,
    "set-service".toList, "stop-service".toList, "start-service".toList,
    "new-psdrive -name hkcr".toList,
    "takeown".toList, "icacls".toList,
    "powercfg".toList,
    "net start".toList, "net stop".toList,
    "bcdedit".toList, "dism".toList, "sfc /scannow".toList ]

/-- The inner loop of `detectAdmin`: `for _, kw := range adminKeywords`, which
returns true at the first keyword that `line` contains. -/
def containsKeyword (line : List Char) : List (List Char) → Bool
  | [] => false
  | kw :: kws => if Strings.Contains line kw then true else containsKeyword line kws

/-- The outer loop of `detectAdmin`: `for scanner.Scan()`, over the remaining
tokens of the scanner. -/
def detectLoop : List (List Char) → Bool
  | [] => false
  | text :: texts =>
    if containsKeyword (Strings.ToLower text) adminKeywords then true
    else detectLoop texts

/-- The function `detectAdmin`. -/
def detectAdmin (os : OS) (path : List Char) : Bool :=
  match os.Open path with
  | none => false
  | some data => detectLoop (scanLines data)

/-- The state of the loop of `scanScripts`: the slice `scripts` built so far,
and the paths that were handed to `detectAdmin`, in the order of the calls. -/
structure ScanState where
  scripts : List Script
  classified : List (List Char)
deriving DecidableEq, Repr

/-- The loop `for _, e := range entries` of `scanScripts`. -/
def scanLoop (os : OS) (dir : List Char) : List DirEntry → ScanState → ScanState
  | [], st => st
  | e :: es, st =>
    if e.IsDir || !Strings.HasSuffix (Strings.ToLower e.Name) ".ps1".toList then
      scanLoop os dir es st
    else
      let fullPath := os.Join dir e.Name
      scanLoop os dir es
        { scripts := st.scripts ++
            [{ Name := Strings.TrimSuffix e.Name ".ps1".toList
               Path := fullPath
               NeedAdmin := detectAdmin os fullPath }]
          classified := st.classified ++ [fullPath] }

/-- The function `scanScripts`, with the record of its calls of
`detectAdmin`. -/
def scanScriptsRun (os : OS) (dir : List Char) : ScanState :=
  match os.ReadDir dir with
  | (entries, err) =>
    if err then { scripts := [], classified := [] }
    else scanLoop os dir entries { scripts := [], classified := [] }

/-- The function `scanScripts`: the slice it returns. -/
def scanScripts (os : OS) (dir : List Char) : List Script :=
  (scanScriptsRun os dir).scripts

/-! ### Launching -/

/-- Go `syscall.UTF16PtrFromString`, the error dropped as the callers do: the
nil pointer (`none`) for a string that contains a NUL, otherwise a pointer to
the NUL-terminated UTF-16 form of the string, represented by the string. -/
def UTF16PtrFromString (s : List Char) : Option (List Char) :=
  if '\x00' ∈ s then none else some s

/-- What `runScript` puts into its `exec.Cmd`: `exec.Command(name, arg...)`
takes the program `Name` to look up and stores `name` followed by the
arguments in `Args`; `HideWindow` is the field of `SysProcAttr`. -/
structure Cmd where
  Name : List Char
  Args : List (List Char)
  HideWindow : Bool
deriving DecidableEq, Repr

/-- A launch request that the program hands to the operating system. -/
inductive Launch where
  /-- The call `cmd.Start()`. -/
  | start (cmd : Cmd)
  /-- The call `ShellExecuteW(hwnd, lpOperation, lpFile, lpParameters,
  lpDirectory, nShowCmd)`, a string argument being `none` for a null pointer. -/
  | shellExecute (hwnd : Nat) (operation file parameters directory : Option (List Char))
      (showCmd : Nat)
deriving DecidableEq, Repr

/-- The flags in front of the script path in the parameter string of
`runAsAdmin`, up to and including the opening double quote. -/
def adminFlags : List Char := "-ExecutionPolicy Bypass -File \"".toList

/-- The function `runAsAdmin`: the one call of `ShellExecuteW` it makes. -/
def runAsAdmin (scriptPath : List Char) : Launch :=
  let verb := UTF16PtrFromString "runas".toList
  let exe := UTF16PtrFromString "powershell".toList
  let args := UTF16PtrFromString (adminFlags ++ scriptPath ++ ['"'])
  Launch.shellExecute 0 verb exe args none 1

/-- The function `runScript`: the launch requests it issues, in order. -/
def runScript (s : Script) : List Launch :=
  if s.NeedAdmin then
    [runAsAdmin s.Path]
  else
    [Launch.start
      { Name := "powershell".toList
        Args := ["powershell".toList, "-ExecutionPolicy".toList, "Bypass".toList,
                 "-File".toList, s.Path]
        HideWindow := true }]

/-! ## The command-line convention of Windows programs -/

/-- Modelled from the spec: the splitting of the parameter string into
arguments by the interpreter, which is no part of the repository.  The spec
asks that a quoted path with spaces "remains a single argument to the
interpreter"; the rules are those every Windows program follows
(`CommandLineToArgvW` and the C runtime): blanks and
tabs outside double quotes separate arguments; a double quote preceded by an
even number `2k` of backslashes yields `k` backslashes and opens or closes a
quoted part; preceded by an odd number `2k+1` it yields `k` backslashes and a
literal double quote; backslashes not followed by a double quote stand for
themselves.  `cur` is the argument under construction, `inQuotes` tells
whether a quoted part is open, `slashes` counts the backslashes just read. -/
def splitArgsFrom : List Char → Option (List Char) → Bool → Nat → List (List Char)
  | [], cur, _, slashes =>
    match cur with
    | none => if slashes = 0 then [] else [List.replicate slashes '\\']
    | some a => [a ++ List.replicate slashes '\\']
  | c :: rest, cur, inQuotes, slashes =>
    if c = '\\' then splitArgsFrom rest cur inQuotes (slashes + 1)
    else if c = '"' then
      let a := cur.getD [] ++ List.replicate (slashes / 2) '\\'
      if slashes % 2 = 1 then splitArgsFrom rest (some (a ++ ['"'])) inQuotes 0
      else splitArgsFrom rest (some a) (!inQuotes) 0
    else
      let cur1 := if slashes = 0 then cur else some (cur.getD [] ++ List.replicate slashes '\\')
      if (c = ' ' ∨ c = '\t') ∧ inQuotes = false then
        match cur1 with
        | none => splitArgsFrom rest none false 0
        | some a => a :: splitArgsFrom rest none false 0
      else splitArgsFrom rest (some (cur1.getD [] ++ [c])) inQuotes 0

/-- The arguments a program receives from a parameter string. -/
def splitArgs (params : List Char) : List (List Char) :=
  splitArgsFrom params none false 0

/-! ## Notions of the specification -/

/-- Two runes are the same letter up to case: they are equal, or they are the
capital and the small form of one ASCII letter. -/
def sameLetter (a b : Char) : Prop :=
  a = b ∨ (65 ≤ a.toNat ∧ a.toNat ≤ 90 ∧ b.toNat = a.toNat + 32)
    ∨ (65 ≤ b.toNat ∧ b.toNat ≤ 90 ∧ a.toNat = b.toNat + 32)

instance (a b : Char) : Decidable (sameLetter a b) := by
  unfold sameLetter; infer_instance

/-- A text spells another one up to the case of its letters. -/
def sameLetters (s t : List Char) : Prop := List.Forall₂ sameLetter s t

/-- A name ends, case-insensitively, with `.ps1`: its last four runes are a
dot, `p` or `P`, `s` or `S`, and `1`. -/
def endsWithPs1 (name : List Char) : Bool :=
  match name.reverse with
  | d :: s :: p :: dot :: _ =>
    decide (dot = '.') && (decide (p = 'p') || decide (p = 'P'))
      && (decide (s = 's') || decide (s = 'S')) && decide (d = '1')
  | _ => false

/-- An entry that the scanner is to select: not a directory, and named like a
script. -/
def isScriptEntry (e : DirEntry) : Bool := !e.IsDir && endsWithPs1 e.Name

/-- The descriptor `scanScripts` builds for a selected entry. -/
def describe (os : OS) (dir : List Char) (e : DirEntry) : Script :=
  { Name := Strings.TrimSuffix e.Name ".ps1".toList
    Path := os.Join dir e.Name
    NeedAdmin := detectAdmin os (os.Join dir e.Name) }

/-- The lines of a text: the pieces between its newline characters. -/
def textLines (data : List Char) : List (List Char) := data.splitOn '\n'

/-- A line holds a keyword once it is put in lower case. -/
def lineMatches (line : List Char) : Prop :=
  ∃ kw ∈ adminKeywords, kw <:+: Strings.ToLower line

/-! ## Example environments -/

/-- The directory listing of the specification's example: `a.ps1`, `b.PS1`,
`readme.txt` and the subdirectory `sub`. -/
def exampleListing : List DirEntry :=
  [ { Name := "a.ps1".toList, IsDir := false },
    { Name := "b.PS1".toList, IsDir := false },
    { Name := "readme.txt".toList, IsDir := false },
    { Name := "sub".toList, IsDir := true } ]

/-- What `filepath.Join` gives on Windows for a clean directory path that
does not end in a separator and a plain file name: the two joined by a
backslash. -/
def joinPlain (dir name : List Char) : List Char := dir ++ ['\\'] ++ name

/-- What `filepath.IsAbs` gives on Windows on the paths of the examples: a
path that begins with a drive letter, a colon and a separator is absolute, a
path that begins with a plain name is not. -/
def isAbsDrive : List Char → Bool
  | d :: ':' :: s :: _ =>
    ((decide (65 ≤ d.toNat) && decide (d.toNat ≤ 90))
      || (decide (97 ≤ d.toNat) && decide (d.toNat ≤ 122)))
    && (decide (s = '\\') || decide (s = '/'))
  | _ => false

/-- An environment in which every directory has the example listing, `a.ps1`
holds a harmless line and every other file `Stop-Service "Spooler"`. -/
def exampleOS : OS :=
  { ReadDir := fun _ => (exampleListing, false)
    Open := fun path =>
      if Strings.HasSuffix path "a.ps1".toList then some "Write-Host hello\r\n".toList
      else some "Stop-Service \"Spooler\"\r\n".toList
    Join := joinPlain
    IsAbs := isAbsDrive }

/-- An environment in which no directory can be listed and no file opened. -/
def brokenOS : OS :=
  { ReadDir := fun _ => (exampleListing, true)
    Open := fun _ => none
    Join := joinPlain
    IsAbs := isAbsDrive }

/-- An environment in which every file holds the text `data`. -/
def textOS (data : List Char) : OS :=
  { ReadDir := fun _ => ([], false)
    Open := fun _ => some data
    Join := joinPlain
    IsAbs := isAbsDrive }

/-- A line of `maxScanTokenSize` letters `a`. -/
def longLine : List Char := List.replicate maxScanTokenSize 'a'

/-- A script whose first line has `maxScanTokenSize` bytes and whose second
line is `takeown /f C:\Windows`. -/
def longThenTakeown : List Char := longLine ++ '\n' :: "takeown /f C:\\Windows".toList

/-- A script whose first line has `maxScanTokenSize` bytes and whose second
line is `Stop-Service "Spooler"`. -/
def longThenStopService : List Char := longLine ++ '\n' :: "Stop-Service \"Spooler\"".toList

/-- A script whose first line has `maxScanTokenSize` bytes and whose second
line is `bcdedit /set testsigning on`. -/
def longThenBcdedit : List Char := longLine ++ '\n' :: "bcdedit /set testsigning on".toList

/-- The directory of the examples. -/
def toolsDir : List Char := "C:\\tools".toList

/-- A string with a double quote and a space in it; no path on Windows. -/
def quotedPath : List Char := "a\" b.ps1".toList

/-- A descriptor whose `Path` holds a NUL character; no path of a file. -/
def nulScript : Script :=
  { Name := "x".toList, Path := ['x', '\x00', '.', 'p', 's', '1'], NeedAdmin := true }

/-- A descriptor to be run elevated, at a path with a space. -/
def elevatedScript : Script :=
  { Name := "fix".toList, Path := "C:\\my tools\\fix.ps1".toList, NeedAdmin := true }

/-- A descriptor to be run without elevation, at a path with a space. -/
def plainScript : Script :=
  { Name := "list".toList, Path := "C:\\my tools\\list.ps1".toList, NeedAdmin := false }

/-- An environment with the same script written twice: in capitals under a
path that ends in `upper.ps1`, in small letters elsewhere. -/
def caseOS : OS :=
  { ReadDir := fun _ => ([], false)
    Open := fun path =>
      if Strings.HasSuffix path "upper.ps1".toList then
        some "NET STOP SPOOLER\r\nexit\n".toList
      else some "net stop spooler\r\nEXIT\n".toList
    Join := joinPlain
    IsAbs := isAbsDrive }

/-! ## Lemmas on the string functions -/

theorem toNat_ofNat_of_lt (n : Nat) (h : n < 0xd800) : (Char.ofNat n).toNat = n := by
  have hv : n.isValidChar := Or.inl h
  rw [Char.ofNat, dif_pos hv]
  rfl

theorem char_eq_of_toNat_eq {a b : Char} (h : a.toNat = b.toNat) : a = b := by
  rw [← Char.ofNat_toNat a, ← Char.ofNat_toNat b, h]

theorem toNat_toLowerRune (c : Char) :
    (Strings.toLowerRune c).toNat = Strings.lowerCode c.toNat := by
  unfold Strings.toLowerRune Strings.lowerCode
  split_ifs with h1 h2 h3
  · exact toNat_ofNat_of_lt _ (by omega)
  · exact toNat_ofNat_of_lt _ (by omega)
  · exact toNat_ofNat_of_lt _ (by omega)
  · rw [Char.ofNat_toNat]

theorem hasPrefix_iff (s pre : List Char) : Strings.HasPrefix s pre = true ↔ pre <+: s := by
  induction s generalizing pre with
  | nil =>
    cases pre with
    | nil => simp [Strings.HasPrefix]
    | cons d pre => simp [Strings.HasPrefix]
  | cons c s ih =>
    cases pre with
    | nil => simp [Strings.HasPrefix]
    | cons d pre =>
      simp only [Strings.HasPrefix, List.cons_prefix_cons]
      by_cases h : c = d
      · simp [h, ih]
      · simp [h, Ne.symm h]

theorem contains_iff (s substr : List Char) :
    Strings.Contains s substr = true ↔ substr <:+: s := by
  induction s with
  | nil =>
    simp only [Strings.Contains, hasPrefix_iff, List.prefix_nil, List.infix_nil]
  | cons c s ih =>
    simp only [Strings.Contains, List.infix_cons_iff]
    by_cases h : Strings.HasPrefix (c :: s) substr = true
    · simp [h, (hasPrefix_iff _ _).1 h]
    · have h2 : ¬ substr <+: c :: s := fun hp => h ((hasPrefix_iff _ _).2 hp)
      simp [h, h2, ih]

theorem hasSuffix_iff (s suffix : List Char) :
    Strings.HasSuffix s suffix = true ↔ suffix <:+ s := by
  unfold Strings.HasSuffix
  simp only [Bool.and_eq_true, decide_eq_true_eq]
  constructor
  · rintro ⟨_, h⟩
    rw [← h]
    exact List.drop_suffix _ _
  · intro h
    refine ⟨h.length_le, ?_⟩
    obtain ⟨t, rfl⟩ := h
    simp

theorem containsKeyword_iff (line : List Char) (kws : List (List Char)) :
    containsKeyword line kws = true ↔ ∃ kw ∈ kws, kw <:+: line := by
  induction kws with
  | nil => simp [containsKeyword]
  | cons kw kws ih =>
    simp only [containsKeyword, List.mem_cons, exists_eq_or_imp]
    by_cases h : Strings.Contains line kw = true
    · simp [h, (contains_iff _ _).1 h]
    · have h2 : ¬ kw <:+: line := fun hp => h ((contains_iff _ _).2 hp)
      simp [h, h2, ih]

theorem detectLoop_iff (texts : List (List Char)) :
    detectLoop texts = true ↔ ∃ text ∈ texts, lineMatches text := by
  induction texts with
  | nil => simp [detectLoop]
  | cons t ts ih =>
    simp only [detectLoop, List.mem_cons, exists_eq_or_imp]
    by_cases h : containsKeyword (Strings.ToLower t) adminKeywords = true
    · simp [h, lineMatches, (containsKeyword_iff _ _).1 h]
    · have h2 : ¬ lineMatches t := fun hp => h ((containsKeyword_iff _ _).2 hp)
      simp [h, h2, ih]

/-! ## Lemmas on the scanner -/

theorem byteLen_replicate_a (n : Nat) : byteLen (List.replicate n 'a') = n := by
  have h : runeLen 'a' = 1 := by decide
  simp [byteLen, List.map_replicate, List.sum_replicate, h]

theorem not_newline_mem_replicate_a (n : Nat) : '\n' ∉ List.replicate n 'a' := by
  intro h
  have := List.eq_of_mem_replicate h
  exact absurd this (by decide)

theorem scanFrom_line (cur l rest : List Char) (hl : '\n' ∉ l) :
    scanFrom cur (l ++ '\n' :: rest) =
      if byteLen (cur ++ l) < maxScanTokenSize then dropCR (cur ++ l) :: scanFrom [] rest
      else [] := by
  induction l generalizing cur with
  | nil => simp [scanFrom]
  | cons c l ih =>
    have hc : c ≠ '\n' := fun h => hl (by simp [h])
    have hl2 : '\n' ∉ l := fun h => hl (List.mem_cons_of_mem _ h)
    rw [List.cons_append, scanFrom, if_neg hc, ih (cur ++ [c]) hl2]
    simp

theorem scanFrom_last (cur l : List Char) (hl : '\n' ∉ l) :
    scanFrom cur l =
      if cur ++ l = [] then []
      else if byteLen (cur ++ l) < maxScanTokenSize then [dropCR (cur ++ l)]
      else [] := by
  induction l generalizing cur with
  | nil => simp [scanFrom]
  | cons c l ih =>
    have hc : c ≠ '\n' := fun h => hl (by simp [h])
    have hl2 : '\n' ∉ l := fun h => hl (List.mem_cons_of_mem _ h)
    rw [scanFrom, if_neg hc, ih (cur ++ [c]) hl2]
    simp

theorem scanLines_longLine (rest : List Char) : scanLines (longLine ++ '\n' :: rest) = [] := by
  unfold scanLines
  rw [scanFrom_line [] longLine rest (not_newline_mem_replicate_a _)]
  simp [longLine, byteLen_replicate_a]

theorem textLines_longLine (rest : List Char) (h : '\n' ∉ rest) :
    textLines (longLine ++ '\n' :: rest) = [longLine, rest] := by
  unfold textLines List.splitOn
  rw [List.splitOnP_first]
  · rw [List.splitOnP_eq_single]
    intro x hx hp
    rw [beq_iff_eq] at hp
    exact h (hp ▸ hx)
  · intro x hx hp
    rw [beq_iff_eq] at hp
    exact not_newline_mem_replicate_a _ (hp ▸ hx)
  · simp

/-! ## Keywords and lines -/

theorem infix_append_cons_iff {kw A B : List Char} {x : Char} (hx : x ∉ kw) :
    kw <:+: A ++ x :: B ↔ kw <:+: A ∨ kw <:+: B := by
  constructor
  · rintro ⟨s, t, h⟩
    rcases List.append_eq_append_iff.1 h with ⟨a, hA, _⟩ | ⟨c, hsk, hB⟩
    · exact Or.inl ⟨s, a, hA.symm⟩
    · cases c with
      | nil =>
        rw [List.append_nil] at hsk
        exact Or.inl ⟨s, [], by rw [List.append_nil]; exact hsk⟩
      | cons y c =>
        rw [List.cons_append, List.cons.injEq] at hB
        obtain ⟨rfl, hB⟩ := hB
        rcases List.append_eq_append_iff.1 hsk with ⟨a, _, hkw⟩ | ⟨d, _, hd⟩
        · exact absurd (hkw ▸ List.mem_append_right a (List.mem_cons_self _ _)) hx
        · cases d with
          | nil =>
            rw [List.nil_append] at hd
            exact absurd (hd ▸ List.mem_cons_self _ _) hx
          | cons z d =>
            rw [List.cons_append, List.cons.injEq] at hd
            exact Or.inr ⟨d, t, by rw [hB, hd.2]⟩
  · rintro (h | h)
    · exact h.trans (List.infix_append' [] A (x :: B) |>.trans (by simp))
    · exact h.trans ((List.suffix_cons x B).isInfix.trans (List.suffix_append A _).isInfix)

theorem infix_concat_iff {kw m : List Char} {x : Char} (hx : x ∉ kw) :
    kw <:+: m ++ [x] ↔ kw <:+: m := by
  rw [infix_append_cons_iff hx]
  constructor
  · rintro (h | h)
    · exact h
    · rw [List.infix_nil] at h
      rw [h]
      exact List.nil_infix
  · exact Or.inl

theorem keywords_no_cr : ∀ kw ∈ adminKeywords, '\r' ∉ kw := by decide

theorem keywords_no_newline : ∀ kw ∈ adminKeywords, '\n' ∉ kw := by decide

theorem keywords_nonempty : ∀ kw ∈ adminKeywords, kw ≠ [] := by decide

theorem toLowerRune_cr : Strings.toLowerRune '\r' = '\r' := by decide

theorem toLowerRune_newline : Strings.toLowerRune '\n' = '\n' := by decide

theorem not_lineMatches_nil : ¬ lineMatches [] := by
  rintro ⟨kw, hkw, h⟩
  have : kw = [] := by simpa [Strings.ToLower] using h
  exact keywords_nonempty kw hkw this

theorem lineMatches_dropCR (l : List Char) : lineMatches (dropCR l) ↔ lineMatches l := by
  unfold dropCR
  split_ifs with h
  · have hl : l = l.dropLast ++ ['\r'] := by
      have := List.dropLast_append_getLast? '\r' (by simpa using h)
      exact this.symm
    have hlow : Strings.ToLower l = Strings.ToLower l.dropLast ++ ['\r'] := by
      conv_lhs => rw [hl]
      simp [Strings.ToLower, toLowerRune_cr]
    unfold lineMatches
    rw [hlow]
    constructor
    · rintro ⟨kw, hkw, hi⟩
      exact ⟨kw, hkw, (infix_concat_iff (keywords_no_cr kw hkw)).2 hi⟩
    · rintro ⟨kw, hkw, hi⟩
      exact ⟨kw, hkw, (infix_concat_iff (keywords_no_cr kw hkw)).1 hi⟩
  · rfl

theorem detectLoop_scanFrom (cur data : List Char)
    (hshort : ∀ l ∈ List.splitOnP.go (· == '\n') data cur.reverse,
      byteLen l < maxScanTokenSize) :
    detectLoop (scanFrom cur data) = true ↔
      ∃ l ∈ List.splitOnP.go (· == '\n') data cur.reverse, lineMatches l := by
  induction data generalizing cur with
  | nil =>
    simp only [List.splitOnP.go, List.reverse_reverse, List.mem_singleton, forall_eq,
      exists_eq_left] at hshort ⊢
    rw [scanFrom]
    by_cases hc : cur = []
    · subst hc
      simp [detectLoop, not_lineMatches_nil]
    · rw [if_neg hc, if_pos hshort, detectLoop_iff]
      simp [lineMatches_dropCR]
  | cons c rest ih =>
    by_cases hc : c = '\n'
    · subst hc
      simp only [List.splitOnP.go, beq_self_eq_true, if_true, List.reverse_reverse,
        List.mem_cons, forall_eq_or_imp, exists_eq_or_imp] at hshort ⊢
      have ih0 := ih [] (by simpa using hshort.2)
      simp only [List.reverse_nil] at ih0
      rw [scanFrom, if_pos rfl, if_pos hshort.1]
      rw [← ih0, detectLoop_iff]
      simp only [List.mem_cons, exists_eq_or_imp, lineMatches_dropCR, detectLoop_iff]
    · have hb : (c == '\n') = false := by simpa using hc
      have hrev : c :: cur.reverse = (cur ++ [c]).reverse := by simp
      simp only [List.splitOnP.go, hb, Bool.false_eq_true, if_false, hrev] at hshort ⊢
      rw [scanFrom, if_neg hc]
      exact ih (cur ++ [c]) hshort

/-! ## `detectAdmin` -/

/-- C1, on the code: a script whose first line has 65536 bytes and whose
second line is `takeown /f C:\Windows` can be opened and has a line that
contains the keyword `takeown`, yet `detectAdmin` returns false: the scanner
stops at the long line and the loop ends without looking at the rest. -/
theorem detectAdmin_false_after_long_line :
    (textOS longThenTakeown).Open "fix.ps1".toList = some longThenTakeown
    ∧ (∃ line ∈ textLines longThenTakeown, lineMatches line)
    ∧ detectAdmin (textOS longThenTakeown) "fix.ps1".toList = false := by
  refine ⟨rfl, ?_, ?_⟩
  · refine ⟨"takeown /f C:\\Windows".toList, ?_, ?_⟩
    · unfold longThenTakeown
      rw [textLines_longLine _ (by decide)]
      simp
    · exact ⟨"takeown".toList, by decide, by decide⟩
  · show detectLoop (scanLines longThenTakeown) = false
    unfold longThenTakeown
    rw [scanLines_longLine]
    rfl

/-- When every line of the file is shorter than 65536 bytes, `detectAdmin`
returns true exactly when some line of the file, put in lower case, contains
a keyword of `adminKeywords`. -/
theorem detectAdmin_iff_line_matches (os : OS) (path data : List Char)
    (hopen : os.Open path = some data)
    (hshort : ∀ line ∈ textLines data, byteLen line < maxScanTokenSize) :
    detectAdmin os path = true ↔ ∃ line ∈ textLines data, lineMatches line := by
  unfold detectAdmin
  rw [hopen]
  exact detectLoop_scanFrom [] data hshort

/-- The script `b.PS1` of the example environment: one short line, which matches. -/
theorem detectAdmin_iff_line_matches_witness :
    exampleOS.Open "C:\\tools\\b.PS1".toList = some "Stop-Service \"Spooler\"\r\n".toList
    ∧ (∀ line ∈ textLines "Stop-Service \"Spooler\"\r\n".toList,
        byteLen line < maxScanTokenSize)
    ∧ (detectAdmin exampleOS "C:\\tools\\b.PS1".toList = true ↔
        ∃ line ∈ textLines "Stop-Service \"Spooler\"\r\n".toList, lineMatches line) :=
  ⟨rfl, by decide,
    detectAdmin_iff_line_matches exampleOS _ _ rfl (by decide)⟩

/-- C5: `detectAdmin` returns false for a path that cannot be opened and for
a file without content. -/
theorem detectAdmin_unopenable_or_empty (os : OS) (path : List Char)
    (h : os.Open path = none ∨ os.Open path = some []) :
    detectAdmin os path = false := by
  unfold detectAdmin
  rcases h with h | h
  · rw [h]
  · rw [h]
    rfl

/-- A path that does not open, and a file without content. -/
theorem detectAdmin_unopenable_or_empty_witness :
    ((brokenOS.Open "missing.ps1".toList = none ∨ brokenOS.Open "missing.ps1".toList = some [])
      ∧ detectAdmin brokenOS "missing.ps1".toList = false)
    ∧ (((textOS []).Open "empty.ps1".toList = none ∨ (textOS []).Open "empty.ps1".toList = some [])
      ∧ detectAdmin (textOS []) "empty.ps1".toList = false) :=
  ⟨⟨Or.inl rfl, detectAdmin_unopenable_or_empty brokenOS _ (Or.inl rfl)⟩,
    ⟨Or.inr rfl, detectAdmin_unopenable_or_empty (textOS []) _ (Or.inr rfl)⟩⟩

/-! ### Lines against the whole text -/

theorem infix_lines_iff (kw : List Char) (hkw : '\n' ∉ kw) (cur data : List Char) :
    (∃ l ∈ List.splitOnP.go (· == '\n') data cur.reverse, kw <:+: Strings.ToLower l) ↔
      kw <:+: Strings.ToLower (cur ++ data) := by
  induction data generalizing cur with
  | nil => simp [List.splitOnP.go]
  | cons c rest ih =>
    by_cases hc : c = '\n'
    · subst hc
      have ih0 := ih []
      simp only [List.reverse_nil, List.nil_append] at ih0
      have hsplit : Strings.ToLower (cur ++ '\n' :: rest) =
          Strings.ToLower cur ++ '\n' :: Strings.ToLower rest := by
        simp [Strings.ToLower, toLowerRune_newline]
      simp only [List.splitOnP.go, beq_self_eq_true, if_true, List.reverse_reverse,
        List.mem_cons, exists_eq_or_imp]
      rw [ih0, hsplit, infix_append_cons_iff hkw]
    · have hb : (c == '\n') = false := by simpa using hc
      have hrev : c :: cur.reverse = (cur ++ [c]).reverse := by simp
      simp only [List.splitOnP.go, hb, Bool.false_eq_true, if_false, hrev]
      rw [ih (cur ++ [c])]
      simp

theorem lineMatches_lines_iff (data : List Char) :
    (∃ line ∈ textLines data, lineMatches line) ↔
      ∃ kw ∈ adminKeywords, kw <:+: Strings.ToLower data := by
  have key : ∀ kw ∈ adminKeywords,
      ((∃ l ∈ textLines data, kw <:+: Strings.ToLower l) ↔ kw <:+: Strings.ToLower data) := by
    intro kw hkw
    have := infix_lines_iff kw (keywords_no_newline kw hkw) [] data
    simpa [textLines, List.splitOn, List.splitOnP] using this
  unfold lineMatches
  constructor
  · rintro ⟨l, hl, kw, hkw, hi⟩
    exact ⟨kw, hkw, (key kw hkw).1 ⟨l, hl, hi⟩⟩
  · rintro ⟨kw, hkw, hi⟩
    obtain ⟨l, hl, hi2⟩ := (key kw hkw).2 hi
    exact ⟨l, hl, kw, hkw, hi2⟩

/-- C10, on the code: the text made of a line of 65536 bytes followed by the
line `bcdedit /set testsigning on` contains the keyword `bcdedit` once put in
lower case, yet `detectAdmin` returns false on it: matching line by line
through the scanner is not matching on the whole text. -/
theorem detectAdmin_false_on_text_with_keyword :
    (textOS longThenBcdedit).Open "boot.ps1".toList = some longThenBcdedit
    ∧ (∃ kw ∈ adminKeywords, kw <:+: Strings.ToLower longThenBcdedit)
    ∧ detectAdmin (textOS longThenBcdedit) "boot.ps1".toList = false := by
  refine ⟨rfl, ?_, ?_⟩
  · refine ⟨"bcdedit".toList, by decide, ?_⟩
    have h1 : "bcdedit".toList <:+: Strings.ToLower "bcdedit /set testsigning on".toList := by
      decide
    have h2 : Strings.ToLower "bcdedit /set testsigning on".toList <:+:
        Strings.ToLower longThenBcdedit := by
      unfold longThenBcdedit Strings.ToLower
      rw [List.map_append, List.map_cons]
      exact ((List.suffix_cons _ _).trans (List.suffix_append _ _)).isInfix
    exact h1.trans h2
  · show detectLoop (scanLines longThenBcdedit) = false
    unfold longThenBcdedit
    rw [scanLines_longLine]
    rfl

/-- When every line of the file is shorter than 65536 bytes, `detectAdmin`
returns true exactly when the whole text, put in lower case, contains a
keyword of `adminKeywords`: cutting the text into lines and dropping the
carriage returns neither hides nor creates a match. -/
theorem detectAdmin_iff_text_matches (os : OS) (path data : List Char)
    (hopen : os.Open path = some data)
    (hshort : ∀ line ∈ textLines data, byteLen line < maxScanTokenSize) :
    detectAdmin os path = true ↔ ∃ kw ∈ adminKeywords, kw <:+: Strings.ToLower data := by
  unfold detectAdmin
  rw [hopen]
  exact (detectLoop_scanFrom [] data hshort).trans (lineMatches_lines_iff data)

/-- The script `a.ps1` of the example environment: one short line without keyword. -/
theorem detectAdmin_iff_text_matches_witness :
    exampleOS.Open "C:\\tools\\a.ps1".toList = some "Write-Host hello\r\n".toList
    ∧ (∀ line ∈ textLines "Write-Host hello\r\n".toList, byteLen line < maxScanTokenSize)
    ∧ (detectAdmin exampleOS "C:\\tools\\a.ps1".toList = true ↔
        ∃ kw ∈ adminKeywords, kw <:+: Strings.ToLower "Write-Host hello\r\n".toList) :=
  ⟨rfl, by decide,
    detectAdmin_iff_text_matches exampleOS _ _ rfl (by decide)⟩

/-! ### Letter case -/

theorem toLowerRune_eq_of_sameLetter {a b : Char} (h : sameLetter a b) :
    Strings.toLowerRune a = Strings.toLowerRune b := by
  apply char_eq_of_toNat_eq
  rw [toNat_toLowerRune, toNat_toLowerRune]
  rcases h with h | ⟨h1, h2, h3⟩ | ⟨h1, h2, h3⟩
  · rw [h]
  · unfold Strings.lowerCode
    split_ifs <;> omega
  · unfold Strings.lowerCode
    split_ifs <;> omega

theorem runeLen_eq_of_sameLetter {a b : Char} (h : sameLetter a b) : runeLen a = runeLen b := by
  rcases h with h | ⟨h1, h2, h3⟩ | ⟨h1, h2, h3⟩
  · rw [h]
  · unfold runeLen
    split_ifs <;> omega
  · unfold runeLen
    split_ifs <;> omega

theorem eq_iff_of_sameLetter {a b : Char} (h : sameLetter a b) (c : Char)
    (hc : c.toNat < 65) : a = c ↔ b = c := by
  rcases h with h | ⟨h1, h2, h3⟩ | ⟨h1, h2, h3⟩
  · rw [h]
  · constructor
    · intro e; rw [e] at h1; omega
    · intro e; rw [e] at h3; omega
  · constructor
    · intro e; rw [e] at h3; omega
    · intro e; rw [e] at h1; omega

theorem toLower_eq_of_sameLetters {s t : List Char} (h : sameLetters s t) :
    Strings.ToLower s = Strings.ToLower t := by
  unfold sameLetters at h
  induction h with
  | nil => rfl
  | cons hab _ ih =>
    simp only [Strings.ToLower, List.map_cons] at ih ⊢
    rw [toLowerRune_eq_of_sameLetter hab, ih]

theorem byteLen_eq_of_sameLetters {s t : List Char} (h : sameLetters s t) :
    byteLen s = byteLen t := by
  unfold sameLetters at h
  induction h with
  | nil => rfl
  | cons hab _ ih =>
    simp only [byteLen, List.map_cons, List.sum_cons] at ih ⊢
    rw [runeLen_eq_of_sameLetter hab, ih]

theorem dropCR_nil : dropCR [] = [] := rfl

theorem dropCR_singleton (c : Char) : dropCR [c] = if c = '\r' then [] else [c] := by
  simp [dropCR]

theorem dropCR_cons_cons (a b : Char) (l : List Char) :
    dropCR (a :: b :: l) = a :: dropCR (b :: l) := by
  unfold dropCR
  rw [List.getLast?_cons_cons]
  split_ifs <;> simp

theorem dropCR_sameLetters {s t : List Char} (h : sameLetters s t) :
    sameLetters (dropCR s) (dropCR t) := by
  unfold sameLetters at h ⊢
  induction h with
  | nil => exact List.Forall₂.nil
  | @cons a b l1 l2 hab hl ih =>
    cases hl with
    | nil =>
      rw [dropCR_singleton, dropCR_singleton]
      have hcr := eq_iff_of_sameLetter hab '\r' (by decide)
      by_cases ha : a = '\r'
      · rw [if_pos ha, if_pos (hcr.1 ha)]
        exact List.Forall₂.nil
      · rw [if_neg ha, if_neg (fun hb => ha (hcr.2 hb))]
        exact List.Forall₂.cons hab List.Forall₂.nil
    | @cons a2 b2 l3 l4 hab2 hl2 =>
      rw [dropCR_cons_cons, dropCR_cons_cons]
      exact List.Forall₂.cons hab ih

theorem detectLoop_eq_of_sameLetters {ts us : List (List Char)}
    (h : List.Forall₂ sameLetters ts us) : detectLoop ts = detectLoop us := by
  induction h with
  | nil => rfl
  | cons hab _ ih =>
    simp only [detectLoop]
    rw [toLower_eq_of_sameLetters hab, ih]

theorem scanFrom_sameLetters {d1 d2 : List Char} (hd : sameLetters d1 d2) :
    ∀ cur1 cur2 : List Char, sameLetters cur1 cur2 →
      List.Forall₂ sameLetters (scanFrom cur1 d1) (scanFrom cur2 d2) := by
  unfold sameLetters at hd
  induction hd with
  | nil =>
    intro cur1 cur2 hcur
    have hlen := byteLen_eq_of_sameLetters hcur
    have hnil : cur1 = [] ↔ cur2 = [] := by
      unfold sameLetters at hcur
      constructor
      · intro e; subst e; cases hcur; rfl
      · intro e; subst e; cases hcur; rfl
    rw [scanFrom, scanFrom]
    by_cases h1 : cur1 = []
    · rw [if_pos h1, if_pos (hnil.1 h1)]
      exact List.Forall₂.nil
    · rw [if_neg h1, if_neg (fun h => h1 (hnil.2 h)), hlen]
      split_ifs
      · exact List.Forall₂.cons (dropCR_sameLetters hcur) List.Forall₂.nil
      · exact List.Forall₂.nil
  | @cons a b l1 l2 hab _ ih =>
    intro cur1 cur2 hcur
    have hlen := byteLen_eq_of_sameLetters hcur
    have hnl := eq_iff_of_sameLetter hab '\n' (by decide)
    rw [scanFrom, scanFrom]
    by_cases ha : a = '\n'
    · rw [if_pos ha, if_pos (hnl.1 ha), hlen]
      split_ifs
      · exact List.Forall₂.cons (dropCR_sameLetters hcur) (ih [] [] List.Forall₂.nil)
      · exact List.Forall₂.nil
    · rw [if_neg ha, if_neg (fun hb => ha (hnl.2 hb))]
      apply ih
      unfold sameLetters at hcur ⊢
      exact List.rel_append hcur (List.Forall₂.cons hab List.Forall₂.nil)

/-- C6, on the code: the script whose first line has 65536 bytes and whose
second line is `Stop-Service "Spooler"` has a line that contains the keyword
`stop-service` spelled `Stop-Service`, yet `detectAdmin` returns false. -/
theorem detectAdmin_false_for_spelled_keyword :
    (textOS longThenStopService).Open "svc.ps1".toList = some longThenStopService
    ∧ (∃ line ∈ textLines longThenStopService, ∃ kw ∈ adminKeywords,
        ∃ w, sameLetters w kw ∧ w <:+: line)
    ∧ detectAdmin (textOS longThenStopService) "svc.ps1".toList = false := by
  refine ⟨rfl, ?_, ?_⟩
  · refine ⟨"Stop-Service \"Spooler\"".toList, ?_, "stop-service".toList, by decide,
      "Stop-Service".toList, ?_, ?_⟩
    · unfold longThenStopService
      rw [textLines_longLine _ (by decide)]
      simp
    · unfold sameLetters
      decide
    · decide
  · show detectLoop (scanLines longThenStopService) = false
    unfold longThenStopService
    rw [scanLines_longLine]
    rfl

theorem toLower_keyword : ∀ kw ∈ adminKeywords, Strings.ToLower kw = kw := by
  decide

/-- Every keyword of `adminKeywords` is a lower-case string: putting it in
lower case leaves it as it is. -/
theorem adminKeywords_lowercase (kw : List Char) (hkw : kw ∈ adminKeywords) :
    Strings.ToLower kw = kw := by
  revert kw
  decide

/-- The keyword `takeown`. -/
theorem adminKeywords_lowercase_witness :
    "takeown".toList ∈ adminKeywords ∧ Strings.ToLower "takeown".toList = "takeown".toList :=
  ⟨by decide, adminKeywords_lowercase _ (by decide)⟩

/-- When every line of the file is shorter than 65536 bytes and some line
contains a keyword spelled in any mix of capital and small letters,
`detectAdmin` returns true. -/
theorem detectAdmin_of_spelled_keyword (os : OS) (path data : List Char)
    (hopen : os.Open path = some data)
    (hshort : ∀ line ∈ textLines data, byteLen line < maxScanTokenSize)
    (hline : ∃ line ∈ textLines data, ∃ kw ∈ adminKeywords,
      ∃ w, sameLetters w kw ∧ w <:+: line) :
    detectAdmin os path = true := by
  unfold detectAdmin
  rw [hopen]
  refine (detectLoop_scanFrom [] data hshort).2 ?_
  obtain ⟨line, hmem, kw, hkw, w, hw, hin⟩ := hline
  refine ⟨line, hmem, kw, hkw, ?_⟩
  have h1 : Strings.ToLower w = kw := by
    rw [toLower_eq_of_sameLetters hw]
    exact toLower_keyword kw hkw
  rw [← h1]
  unfold Strings.ToLower
  exact hin.map _

/-- A file whose content is the line `Stop-Service "Spooler"` is classified
as privileged. -/
theorem detectAdmin_stop_service (os : OS) (path : List Char)
    (hopen : os.Open path = some "Stop-Service \"Spooler\"".toList) :
    detectAdmin os path = true := by
  unfold detectAdmin
  rw [hopen]
  decide

/-- Changing the case of ASCII letters in the content of a file does not
change its classification. -/
theorem detectAdmin_case_invariant (os : OS) (p1 p2 d1 d2 : List Char)
    (h1 : os.Open p1 = some d1) (h2 : os.Open p2 = some d2) (h : sameLetters d1 d2) :
    detectAdmin os p1 = detectAdmin os p2 := by
  unfold detectAdmin
  rw [h1, h2]
  exact detectLoop_eq_of_sameLetters (scanFrom_sameLetters h [] [] List.Forall₂.nil)

/-- A script in capitals, whose first line spells the keyword `net stop`. -/
theorem detectAdmin_of_spelled_keyword_witness :
    caseOS.Open "upper.ps1".toList = some "NET STOP SPOOLER\r\nexit\n".toList
    ∧ (∀ line ∈ textLines "NET STOP SPOOLER\r\nexit\n".toList,
        byteLen line < maxScanTokenSize)
    ∧ detectAdmin caseOS "upper.ps1".toList = true :=
  ⟨rfl, by decide,
    detectAdmin_of_spelled_keyword caseOS _ _ rfl (by decide)
      ⟨"NET STOP SPOOLER\r".toList, by decide, "net stop".toList, by decide,
        "NET STOP".toList, by unfold sameLetters; decide, by decide⟩⟩

/-- An environment whose files hold that line. -/
theorem detectAdmin_stop_service_witness :
    (textOS "Stop-Service \"Spooler\"".toList).Open "svc.ps1".toList =
      some "Stop-Service \"Spooler\"".toList
    ∧ detectAdmin (textOS "Stop-Service \"Spooler\"".toList) "svc.ps1".toList = true :=
  ⟨rfl, detectAdmin_stop_service (textOS "Stop-Service \"Spooler\"".toList) _ rfl⟩

/-- The same script in capitals and in small letters. -/
theorem detectAdmin_case_invariant_witness :
    caseOS.Open "upper.ps1".toList = some "NET STOP SPOOLER\r\nexit\n".toList
    ∧ caseOS.Open "lower.ps1".toList = some "net stop spooler\r\nEXIT\n".toList
    ∧ sameLetters "NET STOP SPOOLER\r\nexit\n".toList "net stop spooler\r\nEXIT\n".toList
    ∧ detectAdmin caseOS "upper.ps1".toList = detectAdmin caseOS "lower.ps1".toList :=
  ⟨rfl, rfl, by unfold sameLetters; decide,
    detectAdmin_case_invariant caseOS _ _ _ _ rfl rfl (by unfold sameLetters; decide)⟩

/-- Outside ASCII the case of a letter can matter: `dısm /online`, written
with the dotless i whose capital is `I`, is not classified as privileged,
its form in capitals `DISM /ONLINE` is. -/
theorem detectAdmin_dotless_i :
    detectAdmin (textOS "dısm /online".toList) "img.ps1".toList = false
    ∧ detectAdmin (textOS "DISM /ONLINE".toList) "img.ps1".toList = true := by
  decide

/-! ## `scanScripts` -/

theorem toLowerRune_eq_iff (c x : Char) :
    Strings.toLowerRune c = x ↔ Strings.lowerCode c.toNat = x.toNat := by
  constructor
  · intro h
    rw [← h, toNat_toLowerRune]
  · intro h
    apply char_eq_of_toNat_eq
    rw [toNat_toLowerRune, h]

theorem toNat_eq_iff (c x : Char) : c.toNat = x.toNat ↔ c = x :=
  ⟨char_eq_of_toNat_eq, fun h => by rw [h]⟩

theorem toLowerRune_eq_dot (c : Char) : Strings.toLowerRune c = '.' ↔ c = '.' := by
  rw [toLowerRune_eq_iff, ← toNat_eq_iff c '.']
  have h : ('.' : Char).toNat = 46 := by decide
  rw [h]
  unfold Strings.lowerCode
  split_ifs <;> omega

theorem toLowerRune_eq_one (c : Char) : Strings.toLowerRune c = '1' ↔ c = '1' := by
  rw [toLowerRune_eq_iff, ← toNat_eq_iff c '1']
  have h : ('1' : Char).toNat = 49 := by decide
  rw [h]
  unfold Strings.lowerCode
  split_ifs <;> omega

theorem toLowerRune_eq_p (c : Char) : Strings.toLowerRune c = 'p' ↔ c = 'p' ∨ c = 'P' := by
  rw [toLowerRune_eq_iff, ← toNat_eq_iff c 'p', ← toNat_eq_iff c 'P']
  have h : ('p' : Char).toNat = 112 := by decide
  have h2 : ('P' : Char).toNat = 80 := by decide
  rw [h, h2]
  unfold Strings.lowerCode
  split_ifs <;> omega

theorem toLowerRune_eq_s (c : Char) : Strings.toLowerRune c = 's' ↔ c = 's' ∨ c = 'S' := by
  rw [toLowerRune_eq_iff, ← toNat_eq_iff c 's', ← toNat_eq_iff c 'S']
  have h : ('s' : Char).toNat = 115 := by decide
  have h2 : ('S' : Char).toNat = 83 := by decide
  rw [h, h2]
  unfold Strings.lowerCode
  split_ifs <;> omega

theorem hasSuffix_toLower_ps1 (name : List Char) :
    Strings.HasSuffix (Strings.ToLower name) ".ps1".toList = endsWithPs1 name := by
  rw [Bool.eq_iff_iff, hasSuffix_iff, ← List.reverse_prefix]
  unfold Strings.ToLower endsWithPs1
  rw [← List.map_reverse]
  have hrev : ".ps1".toList.reverse = ['1', 's', 'p', '.'] := by decide
  rw [hrev]
  rcases name.reverse with _ | ⟨d, _ | ⟨s, _ | ⟨p, _ | ⟨dot, rest⟩⟩⟩⟩
  · simp
  · simp
  · simp
  · simp
  · simp only [List.map_cons, List.cons_prefix_cons, List.nil_prefix, and_true]
    rw [@eq_comm _ '1', @eq_comm _ 's', @eq_comm _ 'p', @eq_comm _ '.']
    simp only [toLowerRune_eq_dot, toLowerRune_eq_one, toLowerRune_eq_p, toLowerRune_eq_s,
      Bool.and_eq_true, Bool.or_eq_true, decide_eq_true_eq]
    tauto

theorem scanLoop_eq (os : OS) (dir : List Char) (es : List DirEntry) (st : ScanState) :
    scanLoop os dir es st =
      { scripts := st.scripts ++ (es.filter isScriptEntry).map (describe os dir)
        classified := st.classified ++ (es.filter isScriptEntry).map (fun e => os.Join dir e.Name) } := by
  induction es generalizing st with
  | nil => simp [scanLoop]
  | cons e es ih =>
    rw [scanLoop, hasSuffix_toLower_ps1]
    by_cases h : isScriptEntry e = true
    · have h2 : (e.IsDir || !endsWithPs1 e.Name) = false := by
        unfold isScriptEntry at h
        cases hd : e.IsDir <;> cases hp : endsWithPs1 e.Name <;> simp_all
      rw [h2]
      simp only [Bool.false_eq_true, if_false]
      rw [ih]
      simp [List.filter_cons, h, describe]
    · have h2 : (e.IsDir || !endsWithPs1 e.Name) = true := by
        unfold isScriptEntry at h
        cases hd : e.IsDir <;> cases hp : endsWithPs1 e.Name <;> simp_all
      rw [h2]
      simp only [if_true]
      rw [ih]
      simp [List.filter_cons, h]

theorem scanScriptsRun_of_read (os : OS) (dir : List Char) (h : (os.ReadDir dir).2 = false) :
    scanScriptsRun os dir =
      { scripts := ((os.ReadDir dir).1.filter isScriptEntry).map (describe os dir)
        classified := ((os.ReadDir dir).1.filter isScriptEntry).map
          (fun e => os.Join dir e.Name) } := by
  unfold scanScriptsRun
  rcases hr : os.ReadDir dir with ⟨entries, err⟩
  rw [hr] at h
  simp only at h
  subst h
  simp [scanLoop_eq]

/-- C2: when the directory can be listed, `scanScripts` returns the
descriptors of the entries that are not directories and whose names end,
case-insensitively, with `.ps1`: one for each such entry and none for any
other, in the order of the listing.  For the listing `a.ps1`, `b.PS1`,
`readme.txt`, `sub/` these are two descriptors. -/
theorem scanScripts_selects_scripts (os : OS) (dir : List Char)
    (hread : (os.ReadDir dir).2 = false) :
    scanScripts os dir = ((os.ReadDir dir).1.filter isScriptEntry).map (describe os dir)
    ∧ ((os.ReadDir dir).1 = exampleListing → (scanScripts os dir).length = 2) := by
  have h : scanScripts os dir =
      ((os.ReadDir dir).1.filter isScriptEntry).map (describe os dir) := by
    unfold scanScripts
    rw [scanScriptsRun_of_read os dir hread]
  refine ⟨h, ?_⟩
  intro hl
  rw [h, hl, List.length_map]
  decide

/-- The example listing, read without error. -/
theorem scanScripts_selects_scripts_witness :
    (exampleOS.ReadDir toolsDir).2 = false
    ∧ scanScripts exampleOS toolsDir =
        ((exampleOS.ReadDir toolsDir).1.filter isScriptEntry).map (describe exampleOS toolsDir)
    ∧ ((exampleOS.ReadDir toolsDir).1 = exampleListing →
        (scanScripts exampleOS toolsDir).length = 2) :=
  ⟨rfl, scanScripts_selects_scripts exampleOS toolsDir rfl⟩

/-- C3, on the code: for the listing `a.ps1`, `b.PS1`, `readme.txt`, `sub/`
the names of the descriptors are `a` and `b.PS1`: the extension written in
capitals is selected by the filter but not stripped from the name, which
still ends, case-insensitively, with `.ps1`. -/
theorem scanScripts_names_example (os : OS) (dir : List Char)
    (hread : os.ReadDir dir = (exampleListing, false)) :
    (scanScripts os dir).map Script.Name = ["a".toList, "b.PS1".toList]
    ∧ ∃ s ∈ scanScripts os dir, s.Name ≠ "b".toList ∧ endsWithPs1 s.Name = true := by
  have h : (scanScripts os dir).map Script.Name = ["a".toList, "b.PS1".toList] := by
    unfold scanScripts
    rw [scanScriptsRun_of_read os dir (by rw [hread]), hread]
    have hname : (Script.Name ∘ describe os dir) =
        fun e => Strings.TrimSuffix e.Name ".ps1".toList := rfl
    rw [List.map_map, hname]
    decide
  refine ⟨h, ?_⟩
  have hmem : "b.PS1".toList ∈ (scanScripts os dir).map Script.Name := by
    rw [h]
    decide
  obtain ⟨s, hs, hn⟩ := List.mem_map.1 hmem
  refine ⟨s, hs, ?_, ?_⟩
  · rw [hn]
    decide
  · rw [hn]
    decide

/-- The example environment lists exactly these entries. -/
theorem scanScripts_names_example_witness :
    exampleOS.ReadDir toolsDir = (exampleListing, false)
    ∧ (scanScripts exampleOS toolsDir).map Script.Name = ["a".toList, "b.PS1".toList]
    ∧ ∃ s ∈ scanScripts exampleOS toolsDir,
        s.Name ≠ "b".toList ∧ endsWithPs1 s.Name = true :=
  ⟨rfl, scanScripts_names_example exampleOS toolsDir rfl⟩

/-- The name of a descriptor is the name of its entry without a trailing
`.ps1` in small letters, and the whole name of the entry when the extension
is written otherwise. -/
theorem describe_name (os : OS) (dir : List Char) (e : DirEntry) :
    (".ps1".toList <:+ e.Name → (describe os dir e).Name ++ ".ps1".toList = e.Name)
    ∧ (¬ ".ps1".toList <:+ e.Name → (describe os dir e).Name = e.Name) := by
  unfold describe Strings.TrimSuffix
  constructor
  · intro h
    rw [if_pos ((hasSuffix_iff _ _).2 h)]
    obtain ⟨t, ht⟩ := h
    rw [← ht]
    simp
  · intro h
    rw [if_neg (fun hh => h ((hasSuffix_iff _ _).1 hh))]

/-- C4: when the directory cannot be listed, `scanScripts` returns the empty
slice and has handed no path to `detectAdmin`. -/
theorem scanScripts_unreadable (os : OS) (dir : List Char)
    (herr : (os.ReadDir dir).2 = true) :
    scanScripts os dir = [] ∧ (scanScriptsRun os dir).classified = [] := by
  unfold scanScripts scanScriptsRun
  rcases hr : os.ReadDir dir with ⟨entries, err⟩
  rw [hr] at herr
  simp only at herr
  subst herr
  simp

/-- A listing that fails, although entries come with the error. -/
theorem scanScripts_unreadable_witness :
    (brokenOS.ReadDir toolsDir).2 = true
    ∧ scanScripts brokenOS toolsDir = []
    ∧ (scanScriptsRun brokenOS toolsDir).classified = [] :=
  ⟨rfl, scanScripts_unreadable brokenOS toolsDir rfl⟩

/-- A name that ends, case-insensitively, with `.ps1` does not end in a
backslash. -/
theorem getLast_ne_backslash_of_endsWithPs1 (path : List Char)
    (h : endsWithPs1 path = true) : path.getLast? ≠ some '\\' := by
  unfold endsWithPs1 at h
  rw [List.getLast?_eq_head?_reverse]
  generalize path.reverse = r at h ⊢
  rcases r with _ | ⟨d, _ | ⟨s, _ | ⟨p, _ | ⟨dot, rest⟩⟩⟩⟩
  · simp
  · simp at h
  · simp at h
  · simp at h
  · simp only [Bool.and_eq_true, decide_eq_true_eq] at h
    rw [List.head?_cons, h.2]
    decide

theorem utf16PtrFromString_of_not_mem (s : List Char) (h : '\x00' ∉ s) :
    UTF16PtrFromString s = some s := by
  unfold UTF16PtrFromString
  rw [if_neg h]

theorem splitArgsFrom_adminFlags (rest : List Char) :
    splitArgsFrom (adminFlags ++ rest) none false 0 =
      "-ExecutionPolicy".toList :: "Bypass".toList :: "-File".toList ::
        splitArgsFrom rest (some []) true 0 := by
  rfl

theorem splitArgsFrom_quoted (path : List Char) :
    ∀ (a : List Char) (n : Nat), '"' ∉ path → (path = [] → n = 0) →
      path.getLast? ≠ some '\\' →
      splitArgsFrom (path ++ ['"']) (some a) true n = [a ++ List.replicate n '\\' ++ path] := by
  induction path with
  | nil =>
    intro a n _ hn _
    rw [hn rfl]
    simp [splitArgsFrom]
  | cons c rest ih =>
    intro a n hq _ hlast
    have hc : c ≠ '"' := fun h => hq (by simp [h])
    have hq2 : '"' ∉ rest := fun h => hq (List.mem_cons_of_mem _ h)
    have hlast2 : rest.getLast? ≠ some '\\' := by
      cases rest with
      | nil => simp
      | cons d rest2 => rwa [List.getLast?_cons_cons] at hlast
    rw [List.cons_append, splitArgsFrom]
    by_cases hb : c = '\\'
    · subst hb
      have hne : rest ≠ [] := by
        intro h
        subst h
        simp at hlast
      rw [if_pos rfl, ih a (n + 1) hq2 (fun h => absurd h hne) hlast2]
      simp [List.replicate_succ']
    · rw [if_neg hb, if_neg hc]
      have hcur : (if n = 0 then some a else some (Option.getD (some a) [] ++
          List.replicate n '\\')).getD [] = a ++ List.replicate n '\\' := by
        by_cases h0 : n = 0
        · simp [h0]
        · simp [h0]
      simp only [and_false, if_false, Bool.true_eq_false]
      rw [hcur, ih _ 0 hq2 (fun _ => rfl) hlast2]
      simp

/-- The quoting relies on the path being a Windows path: for the string
`a" b.ps1`, which names no file on Windows, the parameter string is
`-ExecutionPolicy Bypass -File "a" b.ps1"` and the program receives the two
arguments `a` and `b.ps1` after `-File`. -/
theorem runAsAdmin_quote_in_path :
    ' ' ∈ quotedPath
    ∧ runAsAdmin quotedPath =
        Launch.shellExecute 0 (some "runas".toList) (some "powershell".toList)
          (some "-ExecutionPolicy Bypass -File \"a\" b.ps1\"".toList) none 1
    ∧ splitArgs "-ExecutionPolicy Bypass -File \"a\" b.ps1\"".toList =
        ["-ExecutionPolicy".toList, "Bypass".toList, "-File".toList, "a".toList,
          "b.ps1".toList]
    ∧ quotedPath ∉ splitArgs "-ExecutionPolicy Bypass -File \"a\" b.ps1\"".toList := by
  decide

/-- C7: for every script path, that is a path of a file on Windows, which
holds neither a double quote nor a NUL and does not end in a backslash,
`runAsAdmin` asks for `powershell` with the verb `runas` and the parameter
string `-ExecutionPolicy Bypass -File "<path>"`, the path enclosed in double
quotes, and the interpreter splits this string into the arguments
`-ExecutionPolicy`, `Bypass`, `-File` and one single argument equal to the
path, whatever space characters the path contains. -/
theorem runAsAdmin_path_one_argument (path : List Char)
    (hquote : '"' ∉ path) (hnul : '\x00' ∉ path) (hlast : path.getLast? ≠ some '\\') :
    runAsAdmin path =
      Launch.shellExecute 0 (some "runas".toList) (some "powershell".toList)
        (some ("-ExecutionPolicy Bypass -File \"".toList ++ path ++ "\"".toList)) none 1
    ∧ splitArgs ("-ExecutionPolicy Bypass -File \"".toList ++ path ++ "\"".toList) =
        ["-ExecutionPolicy".toList, "Bypass".toList, "-File".toList, path] := by
  constructor
  · unfold runAsAdmin
    have h0 : '\x00' ∉ adminFlags ++ path ++ ['"'] := by
      have hf : '\x00' ∉ adminFlags := by decide
      have hq : '\x00' ∉ ['"'] := by decide
      simp only [List.mem_append, not_or]
      exact ⟨⟨hf, hnul⟩, hq⟩
    rw [utf16PtrFromString_of_not_mem _ h0]
    rfl
  · show splitArgsFrom (adminFlags ++ path ++ ['"']) none false 0 = _
    rw [List.append_assoc, splitArgsFrom_adminFlags,
      splitArgsFrom_quoted path [] 0 hquote (fun _ => rfl) hlast]
    simp

/-- The path `C:\\my tools\\fix.ps1`, which contains a space. -/
theorem runAsAdmin_path_one_argument_witness :
    '"' ∉ elevatedScript.Path ∧ '\x00' ∉ elevatedScript.Path
    ∧ elevatedScript.Path.getLast? ≠ some '\\'
    ∧ ' ' ∈ elevatedScript.Path
    ∧ runAsAdmin elevatedScript.Path =
      Launch.shellExecute 0 (some "runas".toList) (some "powershell".toList)
        (some ("-ExecutionPolicy Bypass -File \"".toList ++ elevatedScript.Path
          ++ "\"".toList)) none 1
    ∧ splitArgs ("-ExecutionPolicy Bypass -File \"".toList ++ elevatedScript.Path
          ++ "\"".toList) =
        ["-ExecutionPolicy".toList, "Bypass".toList, "-File".toList, elevatedScript.Path] :=
  ⟨by decide, by decide, by decide, by decide,
    runAsAdmin_path_one_argument elevatedScript.Path (by decide) (by decide) (by decide)⟩

/-- The parameter string relies on the path being a path of a file: for a
`Path` with a NUL character, which no file has, `UTF16PtrFromString` yields
the null pointer and the elevation request carries no parameter string. -/
theorem runScript_nul_path :
    nulScript.NeedAdmin = true
    ∧ runScript nulScript =
        [Launch.shellExecute 0 (some "runas".toList) (some "powershell".toList) none none 1] := by
  decide

/-- C8: for every descriptor, its `Path` being the path of a file and so
without NUL character, `runScript` issues exactly one launch request, chosen
by `NeedAdmin` alone: without `NeedAdmin` it starts `powershell` with the
arguments `-ExecutionPolicy`, `Bypass`, `-File` and the path, the window
hidden, and asks for no elevation; with `NeedAdmin` it calls `ShellExecuteW`
with the verb `runas`, the program `powershell` and the parameter string
`-ExecutionPolicy Bypass -File "<path>"`, and starts no process itself. -/
theorem runScript_one_request (s : Script) (hnul : '\x00' ∉ s.Path) :
    (s.NeedAdmin = false →
      runScript s =
        [Launch.start
          { Name := "powershell".toList
            Args := ["powershell".toList, "-ExecutionPolicy".toList, "Bypass".toList,
              "-File".toList, s.Path]
            HideWindow := true }])
    ∧ (s.NeedAdmin = true →
      runScript s =
        [Launch.shellExecute 0 (some "runas".toList) (some "powershell".toList)
          (some ("-ExecutionPolicy Bypass -File \"".toList ++ s.Path ++ "\"".toList))
          none 1]) := by
  constructor
  · intro h
    unfold runScript
    rw [h]
    rfl
  · intro h
    unfold runScript runAsAdmin
    have h0 : '\x00' ∉ adminFlags ++ s.Path ++ ['"'] := by
      have hf : '\x00' ∉ adminFlags := by decide
      have hq : '\x00' ∉ ['"'] := by decide
      simp only [List.mem_append, not_or]
      exact ⟨⟨hf, hnul⟩, hq⟩
    rw [h, utf16PtrFromString_of_not_mem _ h0]
    rfl

/-- A descriptor to be run elevated and one to be run without elevation. -/
theorem runScript_one_request_witness :
    ('\x00' ∉ elevatedScript.Path
      ∧ runScript elevatedScript =
        [Launch.shellExecute 0 (some "runas".toList) (some "powershell".toList)
          (some ("-ExecutionPolicy Bypass -File \"".toList ++ elevatedScript.Path
            ++ "\"".toList)) none 1])
    ∧ ('\x00' ∉ plainScript.Path
      ∧ runScript plainScript =
        [Launch.start
          { Name := "powershell".toList
            Args := ["powershell".toList, "-ExecutionPolicy".toList, "Bypass".toList,
              "-File".toList, plainScript.Path]
            HideWindow := true }]) :=
  ⟨⟨by decide, (runScript_one_request elevatedScript (by decide)).2 rfl⟩,
    ⟨by decide, (runScript_one_request plainScript (by decide)).1 rfl⟩⟩

end WindowsScripts
